import Mathlib

/-!
Verification development for the audio source-separation inference engine
in `src/utils.py`.  The shallow embedding below translates the arithmetic
core of the Python source into Lean: 32-bit float signals become exact
rationals (so "within floating tolerance" becomes exact equality), tensors
become lists or index functions, and the `while`-loop of `demix` becomes a
fuel-indexed recursion (the fuel argument makes non-termination of the
source loop observable instead of hiding it).
-/

namespace VKR

/-! ## Windowing function builder (`_getWindowingArray`, utils.py lines 291-323) -/

/-- Model of `torch.linspace(a, b, steps)`: `steps` evenly spaced points from
`a` to `b` inclusive; a single step yields `[a]`, zero steps yield `[]`. -/
def linspaceQ (a b : ℚ) (steps : ℕ) : List ℚ :=
  if steps = 1 then [a]
  else (List.range steps).map (fun i : ℕ => a + (b - a) * (i : ℚ) / ((steps : ℚ) - 1))

/-- Model of the Python slice assignment `l[start:start+vals.length] = vals`
on a 1-D tensor (used with `start + vals.length ≤ l.length`). -/
def listAssign (l : List ℚ) (start : ℕ) (vals : List ℚ) : List ℚ :=
  l.take start ++ vals ++ l.drop (start + vals.length)

/-- Model of `_getWindowingArray(window_size, fade_size)`:
`window = ones(window_size); window[-fade_size:] = linspace(1,0,fade_size);
window[:fade_size] = linspace(0,1,fade_size)` (utils.py lines 317-323).
Python's negative index `-fade_size` is `window_size - fade_size`, which the
truncated subtraction below reproduces for `fade_size ≤ window_size`. -/
def getWindowingArray (window_size fade_size : ℕ) : List ℚ :=
  let fadein := linspaceQ 0 1 fade_size
  let fadeout := linspaceQ 1 0 fade_size
  let window := List.replicate window_size (1 : ℚ)
  let window := listAssign window (window_size - fade_size) fadeout
  listAssign window 0 fadein

/-! ## Reflect / constant padding (`nn.functional.pad`) -/

/-- Model of `nn.functional.pad(l, (left, right), mode="reflect")` on the last
axis: the sample at distance `k` beyond the head mirrors `l[k]` (without
repeating the edge), and symmetrically at the tail (used with
`left, right < l.length`). -/
def reflectPad (l : List ℚ) (left right : ℕ) : List ℚ :=
  ((List.range left).map (fun k => l.getD (left - k) 0)) ++ l ++
    ((List.range right).map (fun k => l.getD (l.length - 2 - k) 0))

/-- Model of the per-chunk padding in `demix` (utils.py lines 419-425): the
extracted part is padded on the right up to `chunk_size`, with reflect mode
when `chunk_len > chunk_size // 2` in generic mode, else zeros. -/
def padChunk (part : List ℚ) (chunk_size : ℕ) : List ℚ :=
  if chunk_size / 2 < part.length then
    part ++ (List.range (chunk_size - part.length)).map
      (fun k => part.getD (part.length - 2 - k) 0)
  else
    part ++ List.replicate (chunk_size - part.length) 0

/-- Chunk extraction plus padding: `part = mix[:, i:i+chunk_size]` followed by
`padChunk` (single-channel model). -/
def mkPart (mixp : List ℚ) (chunk_size i : ℕ) : List ℚ :=
  padChunk ((mixp.drop i).take chunk_size) chunk_size

/-! ## Chunk scheduling (the `while i < mix.shape[1]` loop of `demix`) -/

/-- Placement sequence produced by the scheduling loop of `demix`
(utils.py lines 417-429): starting from index `i`, record
`(i, chunk_len)` with `chunk_len = min chunk_size (L - i)` and advance by
`step`, while `i < L`.  The explicit `fuel` argument bounds the number of
iterations; the source loop terminates exactly when some finite fuel
suffices. -/
def chunkSchedule (chunk_size step L : ℕ) : ℕ → ℕ → List (ℕ × ℕ)
  | 0, _ => []
  | fuel + 1, i =>
    if i < L then (i, min chunk_size (L - i)) :: chunkSchedule chunk_size step L fuel (i + step)
    else []

theorem chunkSchedule_getElem? (chunk_size step L : ℕ) :
    ∀ fuel i k, (chunkSchedule chunk_size step L fuel i)[k]? =
      if i + k * step < L ∧ k < fuel then
        some (i + k * step, min chunk_size (L - (i + k * step)))
      else none := by
  intro fuel
  induction fuel with
  | zero => intro i k; simp [chunkSchedule]
  | succ fuel ih =>
    intro i k
    rw [chunkSchedule]
    by_cases hi : i < L
    · simp only [hi, if_true]
      cases k with
      | zero => simp [hi]
      | succ k =>
        have := ih (i + step) k
        simp only [List.getElem?_cons_succ, this]
        have harith : i + step + k * step = i + (k + 1) * step := by ring
        rw [harith]
        have hiff : (i + (k + 1) * step < L ∧ k < fuel) ↔
            (i + (k + 1) * step < L ∧ k + 1 < fuel + 1) := by omega
        exact if_congr hiff rfl rfl
    · simp only [hi, if_false]
      have : ¬ (i + k * step < L ∧ k < fuel + 1) := by
        intro h
        exact hi (lt_of_le_of_lt (Nat.le_add_right i (k * step)) h.1)
      simp [this]

theorem chunkSchedule_length (chunk_size step L : ℕ) (hstep : 1 ≤ step) :
    ∀ fuel i, L - i ≤ fuel →
      (chunkSchedule chunk_size step L fuel i).length = (L - i + step - 1) / step := by
  intro fuel
  induction fuel with
  | zero =>
    intro i h
    simp only [chunkSchedule, List.length_nil]
    have : L - i = 0 := by omega
    rw [this]
    exact (Nat.div_eq_of_lt (by omega)).symm
  | succ fuel ih =>
    intro i h
    rw [chunkSchedule]
    by_cases hi : i < L
    · simp only [hi, if_true, List.length_cons]
      rw [ih (i + step) (by omega)]
      rcases Nat.lt_or_ge (L - i) step with hlt | hge
      · have h1 : L - (i + step) = 0 := by omega
        rw [h1]
        have h2 : (0 + step - 1) / step = 0 := Nat.div_eq_of_lt (by omega)
        rw [h2]
        have h3 : L - i + step - 1 = (L - i - 1) + step := by omega
        rw [h3, Nat.add_div_right _ (by omega)]
        have : (L - i - 1) / step = 0 := Nat.div_eq_of_lt (by omega)
        omega
      · have h1 : L - (i + step) + step - 1 = (L - i) - 1 := by omega
        have h2 : L - i + step - 1 = ((L - i) - 1) + step := by omega
        rw [h1, h2, Nat.add_div_right _ (by omega)]
    · simp only [hi, if_false, List.length_nil]
      have : L - i = 0 := by omega
      rw [this]
      exact (Nat.div_eq_of_lt (by omega)).symm

theorem chunkSchedule_fuel_stable (chunk_size step L : ℕ) (hstep : 1 ≤ step) :
    ∀ fuel fuel' i, L - i ≤ fuel → L - i ≤ fuel' →
      chunkSchedule chunk_size step L fuel i = chunkSchedule chunk_size step L fuel' i := by
  intro fuel
  induction fuel with
  | zero =>
    intro fuel' i h h'
    have : ¬ i < L := by omega
    cases fuel' with
    | zero => rfl
    | succ fuel' => simp [chunkSchedule, this]
  | succ fuel ih =>
    intro fuel' i h h'
    cases fuel' with
    | zero =>
      have : ¬ i < L := by omega
      simp [chunkSchedule, this]
    | succ fuel' =>
      rw [chunkSchedule, chunkSchedule]
      by_cases hi : i < L
      · simp only [hi, if_true]
        rw [ih fuel' (i + step) (by omega) (by omega)]
      · simp [hi]

/-! ## The overlap-add accumulation loop of `demix` (generic mode)

Single-channel, single-instrument model: `result[..., s:s+n] += v` on a
tensor becomes the pointwise update of an index function `ℕ → ℚ`.  The
backend (`model(arr)` in line 512) is an arbitrary function `net` from a
padded chunk to an output chunk. -/

/-- Mutable state of the batching loop: the accumulator tensors `result` and
`counter` (as index functions) plus the pending `batch_data` /
`batch_locations` lists. -/
structure DemixState where
  result : ℕ → ℚ
  counter : ℕ → ℚ
  batch_data : List (List ℚ)
  batch_locations : List (ℕ × ℕ)

/-- Window selected at a batch flush (utils.py lines 514-519): clone the
windowing array; if `i - step == 0` (the last chunk of the batch starts at
offset 0) force the leading `fade_size` samples to 1; otherwise if
`i >= mix.shape[1]` force the trailing `fade_size` samples to 1. -/
def flushWindow (wa : List ℚ) (fade_size i step L : ℕ) : List ℚ :=
  if i - step = 0 then listAssign wa 0 (List.replicate fade_size 1)
  else if L ≤ i then listAssign wa (wa.length - fade_size) (List.replicate fade_size 1)
  else wa

/-- Accumulation of one flushed batch (utils.py lines 521-524): for each
`(x_j, (start, seg_len))`, do `result[start:start+seg_len] += x_j[:seg_len] *
window[:seg_len]` and `counter[start:start+seg_len] += window[:seg_len]`. -/
def accumulate (w : List ℚ) :
    List (List ℚ × (ℕ × ℕ)) → (ℕ → ℚ) × (ℕ → ℚ) → (ℕ → ℚ) × (ℕ → ℚ)
  | [], rc => rc
  | (x, (start, seg)) :: rest, (r, c) =>
    accumulate w rest
      (fun t => if start ≤ t ∧ t < start + seg then
          r t + x.getD (t - start) 0 * w.getD (t - start) 0 else r t,
       fun t => if start ≤ t ∧ t < start + seg then
          c t + w.getD (t - start) 0 else c t)

/-- The batching `while` loop of `demix` in generic mode (utils.py lines
417-533), fuel-indexed.  Each iteration extracts and pads a chunk, appends it
to the pending batch, advances `i` by `step`, and flushes the batch through
the backend and `accumulate` when it is full or the end is reached. -/
def demixLoop (net : List ℚ → List ℚ) (chunk_size step fade_size batch_size : ℕ)
    (wa mixp : List ℚ) : ℕ → ℕ → DemixState → DemixState
  | 0, _, st => st
  | fuel + 1, i, st =>
    if i < mixp.length then
      let chunk_len := min chunk_size (mixp.length - i)
      let st1 : DemixState :=
        { st with batch_data := st.batch_data ++ [mkPart mixp chunk_size i],
                  batch_locations := st.batch_locations ++ [(i, chunk_len)] }
      let i' := i + step
      let st2 : DemixState :=
        if batch_size ≤ st1.batch_data.length ∨ mixp.length ≤ i' then
          let w := flushWindow wa fade_size i' step mixp.length
          let rc := accumulate w (List.zip (st1.batch_data.map net) st1.batch_locations)
            (st1.result, st1.counter)
          { result := rc.1, counter := rc.2, batch_data := [], batch_locations := [] }
        else st1
      demixLoop net chunk_size step fade_size batch_size wa mixp fuel i' st2
    else st

/-- Largest finite 32-bit float, `(2 - 2^-23) * 2^127`. -/
def floatMaxQ : ℚ := (2 - 1 / 2 ^ 23) * 2 ^ 127

/-- Model of `estimated_sources = result / counter` followed by
`np.nan_to_num(..., nan=0.0)` (utils.py lines 539-541) on 32-bit floats:
`0/0` is NaN and is replaced by 0; `r/0` with `r ≠ 0` is ±inf, which
`nan_to_num` with only `nan` given maps to ±FLT_MAX, not 0. -/
def finalizeSample (r c : ℚ) : ℚ :=
  if c = 0 then (if r = 0 then 0 else if 0 < r then floatMaxQ else -floatMaxQ)
  else r / c

/-- Border used by the whole-buffer reflect padding of generic mode:
`border = chunk_size - step` (utils.py line 392). -/
def demixBorder (chunk_size num_overlap : ℕ) : ℕ :=
  chunk_size - chunk_size / num_overlap

/-- Whole-buffer padding of generic mode (utils.py lines 396-397): reflect-pad
by `border` on both sides only when `length_init > 2 * border and border > 0`. -/
def demixPadded (chunk_size num_overlap : ℕ) (mix0 : List ℚ) : List ℚ :=
  let border := demixBorder chunk_size num_overlap
  if 2 * border < mix0.length ∧ 0 < border then reflectPad mix0 border border else mix0

/-- Final state of the accumulation loop of `demix` in generic mode, run on
the padded buffer with fuel equal to the padded length (sufficient whenever
`step ≥ 1`) from `i = 0` and zeroed accumulators. -/
def demixFinal (net : List ℚ → List ℚ) (chunk_size num_overlap batch_size : ℕ)
    (mix0 : List ℚ) : DemixState :=
  let fade_size := chunk_size / 10
  let step := chunk_size / num_overlap
  let wa := getWindowingArray chunk_size fade_size
  let mixp := demixPadded chunk_size num_overlap mix0
  demixLoop net chunk_size step fade_size batch_size wa mixp mixp.length 0
    ⟨fun _ => 0, fun _ => 0, [], []⟩

/-- End-to-end generic-mode `demix` on one channel and one instrument:
pad, run the loop, normalize (`result / counter` with NaN→0), and strip the
whole-buffer padding (`estimated_sources[..., border:-border]`). -/
def demixGeneric (net : List ℚ → List ℚ) (chunk_size num_overlap batch_size : ℕ)
    (mix0 : List ℚ) : List ℚ :=
  let border := demixBorder chunk_size num_overlap
  let mixp := demixPadded chunk_size num_overlap mix0
  let st := demixFinal net chunk_size num_overlap batch_size mix0
  let est := (List.range mixp.length).map (fun t => finalizeSample (st.result t) (st.counter t))
  if 2 * border < mix0.length ∧ 0 < border then
    (est.drop border).take (est.length - 2 * border)
  else est

/-- Instrumented mirror of `demixLoop` that records, for every scheduled
chunk, the placement together with the window the flush of its batch
selects.  It follows the control flow of `demixLoop` exactly (the flush
condition only inspects the length of the pending batch, so carrying the
locations list suffices); the linkage to the accumulators is proved below. -/
def chunkWindows (chunk_size step fade_size batch_size : ℕ) (wa : List ℚ) (L : ℕ) :
    ℕ → ℕ → List (ℕ × ℕ) → List (ℕ × ℕ × List ℚ)
  | 0, _, _ => []
  | fuel + 1, i, locs =>
    if i < L then
      let locs1 := locs ++ [(i, min chunk_size (L - i))]
      let i' := i + step
      if batch_size ≤ locs1.length ∨ L ≤ i' then
        locs1.map (fun p => (p.1, p.2, flushWindow wa fade_size i' step L)) ++
          chunkWindows chunk_size step fade_size batch_size wa L fuel i' []
      else chunkWindows chunk_size step fade_size batch_size wa L fuel i' locs1
    else []

/-- Contribution of a list of (start, seg_len, window) triples to `counter`
at sample `t`. -/
def tripCounter (trips : List (ℕ × ℕ × List ℚ)) (t : ℕ) : ℚ :=
  (trips.map (fun p => if p.1 ≤ t ∧ t < p.1 + p.2.1 then p.2.2.getD (t - p.1) 0 else 0)).sum

/-- Contribution of a list of (start, seg_len, window) triples to `result`
at sample `t`, for backend `net` run on the padded chunks of `mixp`. -/
def tripResult (net : List ℚ → List ℚ) (chunk_size : ℕ) (mixp : List ℚ)
    (trips : List (ℕ × ℕ × List ℚ)) (t : ℕ) : ℚ :=
  (trips.map (fun p => if p.1 ≤ t ∧ t < p.1 + p.2.1 then
    (net (mkPart mixp chunk_size p.1)).getD (t - p.1) 0 * p.2.2.getD (t - p.1) 0 else 0)).sum

/-! ## Characterization of the accumulation loop -/

theorem accumulate_apply (w : List ℚ) (t : ℕ) :
    ∀ (batch : List (List ℚ × (ℕ × ℕ))) (r c : ℕ → ℚ),
      (accumulate w batch (r, c)).1 t =
        r t + (batch.map (fun q => if q.2.1 ≤ t ∧ t < q.2.1 + q.2.2 then
          q.1.getD (t - q.2.1) 0 * w.getD (t - q.2.1) 0 else 0)).sum ∧
      (accumulate w batch (r, c)).2 t =
        c t + (batch.map (fun q => if q.2.1 ≤ t ∧ t < q.2.1 + q.2.2 then
          w.getD (t - q.2.1) 0 else 0)).sum := by
  intro batch
  induction batch with
  | nil => intro r c; simp [accumulate]
  | cons q rest ih =>
    intro r c
    obtain ⟨x, start, seg⟩ := q
    simp only [accumulate, List.map_cons, List.sum_cons]
    rcases ih (fun t => if start ≤ t ∧ t < start + seg then
        r t + x.getD (t - start) 0 * w.getD (t - start) 0 else r t)
      (fun t => if start ≤ t ∧ t < start + seg then
        c t + w.getD (t - start) 0 else c t) with ⟨h1, h2⟩
    rw [h1, h2]
    constructor <;> by_cases hc : start ≤ t ∧ t < start + seg <;> simp [hc] <;> ring

theorem demixLoop_char (net : List ℚ → List ℚ) (chunk_size step fade_size batch_size : ℕ)
    (wa mixp : List ℚ) (t : ℕ) :
    ∀ fuel i (locs : List (ℕ × ℕ)) (r c : ℕ → ℚ),
      (demixLoop net chunk_size step fade_size batch_size wa mixp fuel i
          ⟨r, c, locs.map (fun p => mkPart mixp chunk_size p.1), locs⟩).result t =
        r t + tripResult net chunk_size mixp
          (chunkWindows chunk_size step fade_size batch_size wa mixp.length fuel i locs) t ∧
      (demixLoop net chunk_size step fade_size batch_size wa mixp fuel i
          ⟨r, c, locs.map (fun p => mkPart mixp chunk_size p.1), locs⟩).counter t =
        c t + tripCounter
          (chunkWindows chunk_size step fade_size batch_size wa mixp.length fuel i locs) t := by
  intro fuel
  induction fuel with
  | zero =>
    intro i locs r c
    simp [demixLoop, chunkWindows, tripResult, tripCounter]
  | succ fuel ih =>
    intro i locs r c
    rw [demixLoop, chunkWindows]
    by_cases hi : i < mixp.length
    · simp only [hi, if_true, List.length_map, List.length_append, List.length_cons,
        List.length_nil]
      have hbatch : (locs.map (fun p => mkPart mixp chunk_size p.1) ++
          [mkPart mixp chunk_size i]) =
          (locs ++ [(i, min chunk_size (mixp.length - i))]).map
            (fun p => mkPart mixp chunk_size p.1) := by
        simp
      by_cases hflush : batch_size ≤ locs.length + 1 ∨ mixp.length ≤ i + step
      · simp only [hflush, if_true]
        rw [hbatch]
        set locs1 : List (ℕ × ℕ) := locs ++ [(i, min chunk_size (mixp.length - i))] with hlocs1
        set w := flushWindow wa fade_size (i + step) step mixp.length with hw
        have hzip : List.zip ((locs1.map (fun p => mkPart mixp chunk_size p.1)).map net) locs1 =
            locs1.map (fun p => (net (mkPart mixp chunk_size p.1), p)) := by
          rw [List.map_map]
          conv_lhs => rw [show locs1 = locs1.map id from (List.map_id locs1).symm]
          rw [List.map_map, List.zip_map']
          rfl
        rw [hzip]
        set br := accumulate w (locs1.map (fun p => (net (mkPart mixp chunk_size p.1), p))) (r, c)
          with hbr
        rcases accumulate_apply w t (locs1.map (fun p => (net (mkPart mixp chunk_size p.1), p)))
          r c with ⟨ha1, ha2⟩
        rcases ih (i + step) [] br.1 br.2 with ⟨ih1, ih2⟩
        simp only [List.map_nil] at ih1 ih2
        rw [← hbr] at ha1 ha2
        constructor
        · rw [ih1, ha1]
          simp only [tripResult, List.map_append, List.sum_append, List.map_map]
          rw [add_assoc]
          rfl
        · rw [ih2, ha2]
          simp only [tripCounter, List.map_append, List.sum_append, List.map_map]
          rw [add_assoc]
          rfl
      · simp only [hflush, if_false]
        rw [hbatch]
        exact ih (i + step) (locs ++ [(i, min chunk_size (mixp.length - i))]) r c
    · simp [hi, tripResult, tripCounter]

theorem chunkWindows_batch1 (chunk_size step fade_size : ℕ) (wa : List ℚ) (L : ℕ) :
    ∀ fuel i, chunkWindows chunk_size step fade_size 1 wa L fuel i [] =
      (chunkSchedule chunk_size step L fuel i).map
        (fun p => (p.1, p.2, flushWindow wa fade_size (p.1 + step) step L)) := by
  intro fuel
  induction fuel with
  | zero => intro i; simp [chunkWindows, chunkSchedule]
  | succ fuel ih =>
    intro i
    rw [chunkWindows, chunkSchedule]
    by_cases hi : i < L
    · simp only [hi, if_true, List.nil_append, List.length_cons, List.length_nil,
        List.map_cons, List.map_nil]
      have : 1 ≤ 0 + 1 ∨ L ≤ i + step := Or.inl (by omega)
      simp only [this, if_true]
      rw [ih (i + step)]
      rfl
    · simp [hi]

/-! ## Values of the windowing array -/

theorem listAssign_length (l v : List ℚ) (start : ℕ) (h : start + v.length ≤ l.length) :
    (listAssign l start v).length = l.length := by
  simp only [listAssign, List.length_append, List.length_take, List.length_drop]
  omega

theorem listAssign_getD_left (l v : List ℚ) (start t : ℕ) (h : t < start)
    (hs : start ≤ l.length) : (listAssign l start v).getD t 0 = l.getD t 0 := by
  rw [listAssign, List.append_assoc, List.getD_append _ _ _ _ (by simp; omega)]
  simp [List.getElem?_take_of_lt h]

theorem listAssign_getD_mid (l v : List ℚ) (start t : ℕ) (h1 : start ≤ t)
    (h2 : t < start + v.length) (hs : start ≤ l.length) :
    (listAssign l start v).getD t 0 = v.getD (t - start) 0 := by
  rw [listAssign, List.append_assoc,
    List.getD_append_right _ _ _ _ (by simp; omega),
    List.getD_append _ _ _ _ (by simp; omega)]
  congr 1
  simp only [List.length_take]
  omega

theorem listAssign_getD_right (l v : List ℚ) (start t : ℕ) (h : start + v.length ≤ t)
    (hs : start ≤ l.length) : (listAssign l start v).getD t 0 = l.getD t 0 := by
  rw [listAssign, List.append_assoc,
    List.getD_append_right _ _ _ _ (by simp; omega),
    List.getD_append_right _ _ _ _ (by simp; omega)]
  simp only [List.length_take, Nat.min_eq_left hs]
  rcases Nat.lt_or_ge t l.length with ht | ht
  · rw [List.getD_eq_getElem?_getD, List.getElem?_drop, ← List.getD_eq_getElem?_getD]
    congr 1
    omega
  · rw [List.getD_eq_default _ _ ht, List.getD_eq_default]
    simp only [List.length_drop]
    omega

theorem linspaceQ_length (a b : ℚ) (steps : ℕ) : (linspaceQ a b steps).length = steps := by
  rw [linspaceQ]
  by_cases h : steps = 1
  · simp [h]
  · rw [if_neg h, List.length_map, List.length_range]

theorem linspaceQ_getD (a b : ℚ) (steps i : ℕ) (h : i < steps) :
    (linspaceQ a b steps).getD i 0 =
      if steps = 1 then a else a + (b - a) * i / (steps - 1) := by
  rw [linspaceQ]
  by_cases h1 : steps = 1
  · subst h1
    interval_cases i
    simp
  · rw [if_neg h1, List.getD_eq_getElem?_getD, List.getElem?_map, List.getElem?_range h]
    simp [h1]

theorem linspace01_nonneg (steps i : ℕ) :
    0 ≤ (linspaceQ 0 1 steps).getD i 0 := by
  rcases Nat.lt_or_ge i steps with h | h
  · rw [linspaceQ_getD _ _ _ _ h]
    by_cases h1 : steps = 1
    · simp [h1]
    · simp only [h1, if_false]
      have hs : (2 : ℕ) ≤ steps := by omega
      have : (0 : ℚ) < (steps : ℚ) - 1 := by
        have : (2 : ℚ) ≤ (steps : ℚ) := by exact_mod_cast hs
        linarith
      positivity
  · rw [List.getD_eq_default]
    rw [linspaceQ_length]
    exact h

theorem linspace10_nonneg (steps i : ℕ) :
    0 ≤ (linspaceQ 1 0 steps).getD i 0 := by
  rcases Nat.lt_or_ge i steps with h | h
  · rw [linspaceQ_getD _ _ _ _ h]
    by_cases h1 : steps = 1
    · simp [h1]
    · simp only [h1, if_false]
      have hs : (2 : ℕ) ≤ steps := by omega
      have h2 : (0 : ℚ) < (steps : ℚ) - 1 := by
        have : (2 : ℚ) ≤ (steps : ℚ) := by exact_mod_cast hs
        linarith
      have h3 : (i : ℚ) ≤ (steps : ℚ) - 1 := by
        have : (i : ℚ) ≤ (steps : ℚ) - 1 ↔ (i : ℚ) + 1 ≤ (steps : ℚ) := by constructor <;> intro <;> linarith
        rw [this]
        exact_mod_cast h
      have h4 : (0 - 1 : ℚ) * i / (steps - 1) = -(i / (steps - 1)) := by ring
      rw [h4]
      have h5 : (i : ℚ) / (steps - 1) ≤ 1 := by
        rw [div_le_one h2]
        linarith
      linarith
  · rw [List.getD_eq_default]
    rw [linspaceQ_length]
    exact h

theorem getD_nonneg_of_mem (l : List ℚ) (h : ∀ x ∈ l, 0 ≤ x) (t : ℕ) : 0 ≤ l.getD t 0 := by
  rcases Nat.lt_or_ge t l.length with ht | ht
  · rw [List.getD_eq_getElem l 0 ht]
    exact h _ (List.getElem_mem ht)
  · rw [List.getD_eq_default _ _ ht]

theorem mem_nonneg_of_getD (l : List ℚ) (h : ∀ t, 0 ≤ l.getD t 0) : ∀ x ∈ l, 0 ≤ x := by
  intro x hx
  obtain ⟨k, hk, rfl⟩ := List.mem_iff_getElem.mp hx
  rw [← List.getD_eq_getElem l 0 hk]
  exact h k

theorem listAssign_mem_nonneg (l v : List ℚ) (start : ℕ) (hl : ∀ x ∈ l, 0 ≤ x)
    (hv : ∀ x ∈ v, 0 ≤ x) : ∀ x ∈ listAssign l start v, 0 ≤ x := by
  intro x hx
  rw [listAssign] at hx
  rcases List.mem_append.mp hx with hx | hx
  · rcases List.mem_append.mp hx with hx | hx
    · exact hl x (List.mem_of_mem_take hx)
    · exact hv x hx
  · exact hl x (List.mem_of_mem_drop hx)

theorem replicate_one_getD (n t : ℕ) (h : t < n) :
    (List.replicate n (1 : ℚ)).getD t 0 = 1 := by
  rw [List.getD_eq_getElem _ 0 (by simp [h]), List.getElem_replicate]

theorem getWindowingArray_length (size fade : ℕ) (h : fade ≤ size) :
    (getWindowingArray size fade).length = size := by
  rw [getWindowingArray, listAssign_length, listAssign_length]
  · simp
  · simp [linspaceQ_length]
    omega
  · rw [listAssign_length] <;> simp [linspaceQ_length] <;> omega

theorem getWindowingArray_getD_fadein (size fade t : ℕ) (ht : t < fade) (_h : fade ≤ size) :
    (getWindowingArray size fade).getD t 0 = (linspaceQ 0 1 fade).getD t 0 := by
  rw [getWindowingArray, listAssign_getD_mid _ _ _ _ (Nat.zero_le t)
    (by simp [linspaceQ_length, ht]) (Nat.zero_le _)]
  simp

theorem getWindowingArray_getD_mid (size fade t : ℕ) (h1 : fade ≤ t) (h2 : t < size - fade) :
    (getWindowingArray size fade).getD t 0 = 1 := by
  have h : fade ≤ size := by omega
  rw [getWindowingArray, listAssign_getD_right _ _ _ _ (by simp [linspaceQ_length]; omega)
    (Nat.zero_le _)]
  rw [listAssign_getD_left _ _ _ _ h2 (by simp)]
  exact replicate_one_getD _ _ (by omega)

theorem getWindowingArray_getD_fadeout (size fade j : ℕ) (hj : j < fade)
    (h : 2 * fade ≤ size) :
    (getWindowingArray size fade).getD (size - fade + j) 0 = (linspaceQ 1 0 fade).getD j 0 := by
  rw [getWindowingArray, listAssign_getD_right _ _ _ _ (by simp [linspaceQ_length]; omega)
    (Nat.zero_le _)]
  rw [listAssign_getD_mid _ _ _ _ (by omega) (by simp [linspaceQ_length]; omega) (by simp)]
  congr 1
  omega

theorem getWindowingArray_mem_nonneg (size fade : ℕ) :
    ∀ x ∈ getWindowingArray size fade, 0 ≤ x := by
  rw [getWindowingArray]
  apply listAssign_mem_nonneg
  · apply listAssign_mem_nonneg
    · intro x hx
      rw [List.eq_of_mem_replicate hx]
      norm_num
    · exact mem_nonneg_of_getD _ (linspace10_nonneg fade)
  · exact mem_nonneg_of_getD _ (linspace01_nonneg fade)

/-! ## Values of the flush window -/

theorem flushWindow_length (wa : List ℚ) (fade i step L : ℕ) (h : fade ≤ wa.length) :
    (flushWindow wa fade i step L).length = wa.length := by
  rw [flushWindow]
  by_cases h1 : i - step = 0
  · rw [if_pos h1, listAssign_length]
    simp [h]
  · rw [if_neg h1]
    by_cases h2 : L ≤ i
    · rw [if_pos h2, listAssign_length]
      simp
      omega
    · rw [if_neg h2]

theorem flushWindow_mem_nonneg (wa : List ℚ) (fade i step L : ℕ)
    (hwa : ∀ x ∈ wa, 0 ≤ x) : ∀ x ∈ flushWindow wa fade i step L, 0 ≤ x := by
  rw [flushWindow]
  have hrep : ∀ x ∈ List.replicate fade (1 : ℚ), 0 ≤ x := by
    intro x hx
    rw [List.eq_of_mem_replicate hx]
    norm_num
  by_cases h1 : i - step = 0
  · rw [if_pos h1]
    exact listAssign_mem_nonneg _ _ _ hwa hrep
  · rw [if_neg h1]
    by_cases h2 : L ≤ i
    · rw [if_pos h2]
      exact listAssign_mem_nonneg _ _ _ hwa hrep
    · rw [if_neg h2]
      exact hwa

theorem flushWindow_getD_plateau (wa : List ℚ) (fade i step L t : ℕ)
    (h1 : fade ≤ t) (h2 : t < wa.length - fade) :
    (flushWindow wa fade i step L).getD t 0 = wa.getD t 0 := by
  rw [flushWindow]
  by_cases hb1 : i - step = 0
  · rw [if_pos hb1, listAssign_getD_right _ _ _ _ (by simp; omega) (Nat.zero_le _)]
  · rw [if_neg hb1]
    by_cases hb2 : L ≤ i
    · rw [if_pos hb2, listAssign_getD_left _ _ _ _ h2 (by omega)]
    · rw [if_neg hb2]

theorem flushWindow_getD_leading (wa : List ℚ) (fade i step L t : ℕ)
    (hb : i - step = 0) (ht : t < fade) (_h : fade ≤ wa.length) :
    (flushWindow wa fade i step L).getD t 0 = 1 := by
  rw [flushWindow, if_pos hb, listAssign_getD_mid _ _ _ _ (Nat.zero_le t)
    (by simp [ht]) (Nat.zero_le _)]
  exact replicate_one_getD _ _ (by omega)

/-! ## Values of padded buffers and padded chunks -/

theorem reflectPad_length (l : List ℚ) (left right : ℕ) :
    (reflectPad l left right).length = left + l.length + right := by
  simp [reflectPad]
  omega

theorem reflectPad_getD_mid (l : List ℚ) (left right u : ℕ) (h : u < l.length) :
    (reflectPad l left right).getD (left + u) 0 = l.getD u 0 := by
  rw [reflectPad, List.append_assoc, List.getD_append_right _ _ _ _ (by simp),
    List.getD_append _ _ _ _ (by simp; omega)]
  congr 1
  simp

theorem padChunk_getD_lt (part : List ℚ) (chunk_size d : ℕ) (h : d < part.length) :
    (padChunk part chunk_size).getD d 0 = part.getD d 0 := by
  rw [padChunk]
  by_cases hb : chunk_size / 2 < part.length
  · rw [if_pos hb, List.getD_append _ _ _ _ h]
  · rw [if_neg hb, List.getD_append _ _ _ _ h]

theorem mkPart_getD (mixp : List ℚ) (chunk_size s d : ℕ) (h1 : d < chunk_size)
    (h2 : s + d < mixp.length) :
    (mkPart mixp chunk_size s).getD d 0 = mixp.getD (s + d) 0 := by
  rw [mkPart, padChunk_getD_lt _ _ _ (by simp; omega)]
  rw [List.getD_eq_getElem?_getD, List.getElem?_take_of_lt h1, List.getElem?_drop,
    ← List.getD_eq_getElem?_getD]

/-! ## Pointwise facts about trip contributions -/

theorem tripResult_id (chunk_size : ℕ) (mixp : List ℚ) (t : ℕ) :
    ∀ trips : List (ℕ × ℕ × List ℚ),
      (∀ p ∈ trips, p.2.1 ≤ chunk_size ∧ p.1 + p.2.1 ≤ mixp.length) →
      tripResult id chunk_size mixp trips t = mixp.getD t 0 * tripCounter trips t := by
  intro trips
  induction trips with
  | nil => intro _; simp [tripResult, tripCounter]
  | cons p rest ih =>
    intro h
    have hp := h p (List.mem_cons_self p rest)
    have hrest := ih (fun q hq => h q (List.mem_cons_of_mem p hq))
    simp only [tripResult, tripCounter, List.map_cons, List.sum_cons] at hrest ⊢
    rw [hrest]
    by_cases hc : p.1 ≤ t ∧ t < p.1 + p.2.1
    · rw [if_pos hc, if_pos hc, id]
      rw [mkPart_getD mixp chunk_size p.1 (t - p.1) (by omega) (by omega)]
      rw [show p.1 + (t - p.1) = t by omega]
      ring
    · rw [if_neg hc, if_neg hc]
      ring

theorem tripCounter_term_nonneg (trips : List (ℕ × ℕ × List ℚ)) (t : ℕ)
    (h : ∀ p ∈ trips, ∀ x ∈ p.2.2, 0 ≤ x) :
    ∀ q ∈ trips.map (fun p => if p.1 ≤ t ∧ t < p.1 + p.2.1 then p.2.2.getD (t - p.1) 0 else 0),
      0 ≤ q := by
  intro q hq
  obtain ⟨p, hp, rfl⟩ := List.mem_map.mp hq
  by_cases hc : p.1 ≤ t ∧ t < p.1 + p.2.1
  · rw [if_pos hc]
    exact getD_nonneg_of_mem _ (h p hp) _
  · rw [if_neg hc]

theorem tripCounter_nonneg (trips : List (ℕ × ℕ × List ℚ)) (t : ℕ)
    (h : ∀ p ∈ trips, ∀ x ∈ p.2.2, 0 ≤ x) : 0 ≤ tripCounter trips t :=
  List.sum_nonneg (tripCounter_term_nonneg trips t h)

theorem tripCounter_pos_of_mem (trips : List (ℕ × ℕ × List ℚ)) (t : ℕ) (p : ℕ × ℕ × List ℚ)
    (hmem : p ∈ trips) (h : ∀ p ∈ trips, ∀ x ∈ p.2.2, 0 ≤ x)
    (hcov : p.1 ≤ t ∧ t < p.1 + p.2.1) (hval : p.2.2.getD (t - p.1) 0 = 1) :
    1 ≤ tripCounter trips t := by
  have hterm : (if p.1 ≤ t ∧ t < p.1 + p.2.1 then p.2.2.getD (t - p.1) 0 else 0) ≤
      tripCounter trips t := by
    apply List.single_le_sum (tripCounter_term_nonneg trips t h)
    exact List.mem_map.mpr ⟨p, hmem, rfl⟩
  rw [if_pos hcov, hval] at hterm
  exact hterm

theorem tripCounter_zero_result (net : List ℚ → List ℚ) (chunk_size : ℕ) (mixp : List ℚ)
    (t : ℕ) : ∀ trips : List (ℕ × ℕ × List ℚ),
      (∀ p ∈ trips, ∀ x ∈ p.2.2, 0 ≤ x) → tripCounter trips t = 0 →
      tripResult net chunk_size mixp trips t = 0 := by
  intro trips
  induction trips with
  | nil => intro _ _; simp [tripResult]
  | cons p rest ih =>
    intro h hz
    simp only [tripCounter, List.map_cons, List.sum_cons] at hz
    have hhead : 0 ≤ (if p.1 ≤ t ∧ t < p.1 + p.2.1 then p.2.2.getD (t - p.1) 0 else 0) := by
      by_cases hc : p.1 ≤ t ∧ t < p.1 + p.2.1
      · rw [if_pos hc]
        exact getD_nonneg_of_mem _ (h p (List.mem_cons_self p rest)) _
      · rw [if_neg hc]
    have htail : 0 ≤ tripCounter rest t :=
      tripCounter_nonneg rest t (fun q hq => h q (List.mem_cons_of_mem p hq))
    have hh0 : (if p.1 ≤ t ∧ t < p.1 + p.2.1 then p.2.2.getD (t - p.1) 0 else 0) = 0 := by
      have := hz
      unfold tripCounter at htail
      linarith
    have ht0 : tripCounter rest t = 0 := by
      unfold tripCounter at htail ⊢
      linarith [hz, hhead]
    simp only [tripResult, List.map_cons, List.sum_cons]
    rw [show (rest.map fun p => if p.1 ≤ t ∧ t < p.1 + p.2.1 then
      (net (mkPart mixp chunk_size p.1)).getD (t - p.1) 0 * p.2.2.getD (t - p.1) 0 else 0).sum
      = tripResult net chunk_size mixp rest t from rfl,
      ih (fun q hq => h q (List.mem_cons_of_mem p hq)) ht0]
    by_cases hc : p.1 ≤ t ∧ t < p.1 + p.2.1
    · rw [if_pos hc] at hh0 ⊢
      rw [hh0]
      ring
    · rw [if_neg hc]
      ring

/-! ## The final state of `demix`, expressed through trip contributions -/

theorem demixFinal_char (net : List ℚ → List ℚ) (chunk_size num_overlap batch_size : ℕ)
    (mix0 : List ℚ) (t : ℕ) :
    (demixFinal net chunk_size num_overlap batch_size mix0).result t =
      tripResult net chunk_size (demixPadded chunk_size num_overlap mix0)
        (chunkWindows chunk_size (chunk_size / num_overlap) (chunk_size / 10) batch_size
          (getWindowingArray chunk_size (chunk_size / 10))
          (demixPadded chunk_size num_overlap mix0).length
          (demixPadded chunk_size num_overlap mix0).length 0 []) t ∧
    (demixFinal net chunk_size num_overlap batch_size mix0).counter t =
      tripCounter
        (chunkWindows chunk_size (chunk_size / num_overlap) (chunk_size / 10) batch_size
          (getWindowingArray chunk_size (chunk_size / 10))
          (demixPadded chunk_size num_overlap mix0).length
          (demixPadded chunk_size num_overlap mix0).length 0 []) t := by
  have h := demixLoop_char net chunk_size (chunk_size / num_overlap) (chunk_size / 10)
    batch_size (getWindowingArray chunk_size (chunk_size / 10))
    (demixPadded chunk_size num_overlap mix0) t
    (demixPadded chunk_size num_overlap mix0).length 0 [] (fun _ => 0) (fun _ => 0)
  simp only [List.map_nil, zero_add] at h
  exact h

theorem chunkWindows_window_shape (chunk_size step fade_size batch_size : ℕ)
    (wa : List ℚ) (L : ℕ) :
    ∀ fuel i locs, ∀ p ∈ chunkWindows chunk_size step fade_size batch_size wa L fuel i locs,
      ∃ j, p.2.2 = flushWindow wa fade_size j step L := by
  intro fuel
  induction fuel with
  | zero => intro i locs p hp; simp [chunkWindows] at hp
  | succ fuel ih =>
    intro i locs p hp
    rw [chunkWindows] at hp
    by_cases hi : i < L
    · simp only [hi, if_true] at hp
      by_cases hflush : batch_size ≤ (locs ++ [(i, min chunk_size (L - i))]).length ∨
          L ≤ i + step
      · rw [if_pos hflush] at hp
        rcases List.mem_append.mp hp with hp | hp
        · obtain ⟨q, _, rfl⟩ := List.mem_map.mp hp
          exact ⟨i + step, rfl⟩
        · exact ih (i + step) [] p hp
      · rw [if_neg hflush] at hp
        exact ih (i + step) (locs ++ [(i, min chunk_size (L - i))]) p hp
    · simp [hi] at hp

theorem chunkSchedule_mem_shape (chunk_size step L : ℕ) :
    ∀ fuel i, ∀ p ∈ chunkSchedule chunk_size step L fuel i,
      p.2 = min chunk_size (L - p.1) ∧ p.1 < L := by
  intro fuel
  induction fuel with
  | zero => intro i p hp; simp [chunkSchedule] at hp
  | succ fuel ih =>
    intro i p hp
    rw [chunkSchedule] at hp
    by_cases hi : i < L
    · rw [if_pos hi] at hp
      rcases List.mem_cons.mp hp with hp | hp
      · subst hp
        exact ⟨rfl, hi⟩
      · exact ih (i + step) p hp
    · rw [if_neg hi] at hp
      simp at hp

/-- Arithmetic bound of the generic mode: with `fade_size = chunk_size / 10`
and `step = chunk_size / num_overlap` for `num_overlap ≥ 2`, the plateau of
the window is wider than one step: `2 * fade_size + step ≤ chunk_size`. -/
theorem fade_step_bound (chunk_size num_overlap : ℕ) (hO : 2 ≤ num_overlap) :
    2 * (chunk_size / 10) + chunk_size / num_overlap ≤ chunk_size := by
  have hs2 : chunk_size / num_overlap ≤ chunk_size / 2 :=
    Nat.div_le_div_left hO (by omega)
  omega

theorem batch1_counter_pos (chunk_size num_overlap : ℕ) (mix0 : List ℚ) (t : ℕ)
    (hO : 2 ≤ num_overlap) (hstep : 1 ≤ chunk_size / num_overlap)
    (ht : t < (demixPadded chunk_size num_overlap mix0).length) :
    1 ≤ (demixFinal id chunk_size num_overlap 1 mix0).counter t := by
  rw [(demixFinal_char id chunk_size num_overlap 1 mix0 t).2, chunkWindows_batch1]
  set step := chunk_size / num_overlap with hstepdef
  set fade := chunk_size / 10 with hfadedef
  set wa := getWindowingArray chunk_size fade with hwadef
  set mixp := demixPadded chunk_size num_overlap mix0 with hmixpdef
  set L := mixp.length with hLdef
  have hCpos : num_overlap ≤ chunk_size := by
    by_contra hc
    have : chunk_size / num_overlap = 0 := Nat.div_eq_of_lt (by omega)
    omega
  have hfadeC : fade ≤ chunk_size := Nat.div_le_self _ _
  have hwalen : wa.length = chunk_size := getWindowingArray_length _ _ hfadeC
  have hwanonneg : ∀ x ∈ wa, 0 ≤ x := getWindowingArray_mem_nonneg _ _
  have hplateau : 2 * fade + step ≤ chunk_size := fade_step_bound _ _ hO
  set sched := chunkSchedule chunk_size step L L 0 with hsched
  set trips := sched.map
    (fun p => (p.1, p.2, flushWindow wa fade (p.1 + step) step L)) with htrips
  have hnn : ∀ p ∈ trips, ∀ x ∈ p.2.2, 0 ≤ x := by
    intro p hp
    obtain ⟨q, _, rfl⟩ := List.mem_map.mp hp
    exact flushWindow_mem_nonneg wa fade _ step L hwanonneg
  rcases Nat.lt_or_ge t fade with htf | htf
  · -- near the start of the buffer the first chunk is accumulated with the
    -- leading fade forced to one
    have hget0 := chunkSchedule_getElem? chunk_size step L L 0 0
    simp only [Nat.zero_mul, Nat.add_zero] at hget0
    rw [if_pos ⟨(by omega : 0 < L), (by omega : 0 < L)⟩] at hget0
    have hmem0 : ((0 : ℕ), min chunk_size (L - 0)) ∈ sched := List.getElem?_mem hget0
    apply tripCounter_pos_of_mem trips t
      ((0 : ℕ), min chunk_size (L - 0), flushWindow wa fade (0 + step) step L)
      (List.mem_map.mpr ⟨_, hmem0, rfl⟩) hnn
    · exact ⟨by omega, by simp only; omega⟩
    · simp only
      rw [flushWindow_getD_leading wa fade (0 + step) step L (t - 0) (by omega) (by omega)
        (by omega)]
  · -- in the interior, the chunk starting at `(t - fade) / step * step`
    -- covers `t` inside the all-ones plateau of its window
    set k := (t - fade) / step with hkdef
    have e1 : k * step ≤ t - fade := Nat.div_mul_le_self (t - fade) step
    have e2 : t - fade < k * step + step := by
      have hdm := Nat.div_add_mod (t - fade) step
      rw [← hkdef] at hdm
      have hmod := Nat.mod_lt (t - fade) (show 0 < step by omega)
      have hco : step * k = k * step := Nat.mul_comm step k
      omega
    have hkk : k ≤ k * step := by
      have := Nat.mul_le_mul_left k (show 1 ≤ step by omega)
      simpa using this
    have hget := chunkSchedule_getElem? chunk_size step L L 0 k
    rw [if_pos ⟨(by omega : 0 + k * step < L), (by omega : k < L)⟩] at hget
    have hmem : ((0 + k * step : ℕ), min chunk_size (L - (0 + k * step))) ∈ sched :=
      List.getElem?_mem hget
    apply tripCounter_pos_of_mem trips t
      ((0 + k * step : ℕ), min chunk_size (L - (0 + k * step)),
        flushWindow wa fade ((0 + k * step) + step) step L)
      (List.mem_map.mpr ⟨_, hmem, rfl⟩) hnn
    · exact ⟨by omega, by simp only; omega⟩
    · simp only
      rw [flushWindow_getD_plateau wa fade _ step L _ (by omega) (by omega)]
      rw [show t - (0 + k * step) = t - k * step by omega]
      exact getWindowingArray_getD_mid chunk_size fade (t - k * step) (by omega) (by omega)

theorem finalizeSample_mul (m c : ℚ) (hc : c ≠ 0) : finalizeSample (m * c) c = m := by
  rw [finalizeSample, if_neg hc]
  field_simp

theorem demixPadded_length (chunk_size num_overlap : ℕ) (mix0 : List ℚ) :
    (demixPadded chunk_size num_overlap mix0).length =
      if 2 * demixBorder chunk_size num_overlap < mix0.length ∧
          0 < demixBorder chunk_size num_overlap then
        mix0.length + 2 * demixBorder chunk_size num_overlap
      else mix0.length := by
  rw [demixPadded]
  by_cases h : 2 * demixBorder chunk_size num_overlap < mix0.length ∧
      0 < demixBorder chunk_size num_overlap
  · rw [if_pos h, if_pos h, reflectPad_length]
    omega
  · rw [if_neg h, if_neg h]

theorem demixFinal_id_value (chunk_size num_overlap : ℕ) (mix0 : List ℚ) (t : ℕ)
    (hO : 2 ≤ num_overlap) (hstep : 1 ≤ chunk_size / num_overlap)
    (ht : t < (demixPadded chunk_size num_overlap mix0).length) :
    finalizeSample ((demixFinal id chunk_size num_overlap 1 mix0).result t)
      ((demixFinal id chunk_size num_overlap 1 mix0).counter t) =
      (demixPadded chunk_size num_overlap mix0).getD t 0 := by
  have hchar := demixFinal_char id chunk_size num_overlap 1 mix0 t
  have hpos := batch1_counter_pos chunk_size num_overlap mix0 t hO hstep ht
  rw [hchar.2] at hpos
  rw [hchar.1, hchar.2]
  rw [chunkWindows_batch1] at hpos ⊢
  set mixp := demixPadded chunk_size num_overlap mix0 with hmixpdef
  set L := mixp.length with hLdef
  set sched := chunkSchedule chunk_size (chunk_size / num_overlap) L L 0 with hscheddef
  set trips := sched.map (fun p => (p.1, p.2,
    flushWindow (getWindowingArray chunk_size (chunk_size / 10)) (chunk_size / 10)
      (p.1 + chunk_size / num_overlap) (chunk_size / num_overlap) L)) with htripsdef
  have hwf : ∀ p ∈ trips, p.2.1 ≤ chunk_size ∧ p.1 + p.2.1 ≤ mixp.length := by
    intro p hp
    obtain ⟨q, hq, rfl⟩ := List.mem_map.mp hp
    have := chunkSchedule_mem_shape chunk_size (chunk_size / num_overlap) L L 0 q hq
    simp only
    omega
  rw [tripResult_id chunk_size mixp t trips hwf]
  exact finalizeSample_mul _ _ (ne_of_gt (lt_of_lt_of_le zero_lt_one hpos))

theorem demixGeneric_id_roundtrip (chunk_size num_overlap : ℕ) (mix0 : List ℚ)
    (hO : 2 ≤ num_overlap) (hstep : 1 ≤ chunk_size / num_overlap)
    (hC : chunk_size < mix0.length) :
    demixGeneric id chunk_size num_overlap 1 mix0 = mix0 := by
  have hval := demixFinal_id_value chunk_size num_overlap mix0
  have hplen := demixPadded_length chunk_size num_overlap mix0
  simp only [demixGeneric]
  set border := demixBorder chunk_size num_overlap with hborderdef
  set mixp := demixPadded chunk_size num_overlap mix0 with hmixpdef
  set st := demixFinal id chunk_size num_overlap 1 mix0 with hstdef
  set est := (List.range mixp.length).map
    (fun t => finalizeSample (st.result t) (st.counter t)) with hestdef
  have hestlen : est.length = mixp.length := by
    rw [hestdef, List.length_map, List.length_range]
  have hestval : ∀ u, ∀ hu : u < est.length, est[u] = mixp.getD u 0 := by
    intro u hu
    simp only [hestdef, List.getElem_map, List.getElem_range]
    exact hval u hO hstep (by omega)
  by_cases hpad : 2 * border < mix0.length ∧ 0 < border
  · rw [if_pos hpad]
    rw [if_pos hpad] at hplen
    apply List.ext_getElem
    · simp only [List.length_take, List.length_drop, hestlen, hplen]
      omega
    · intro n h1 h2
      rw [List.getElem_take, List.getElem_drop]
      have hn : border + n < mixp.length := by
        simp only [List.length_take, List.length_drop, hestlen, hplen] at h1
        omega
      rw [hestval (border + n) (by omega)]
      rw [hmixpdef, demixPadded, if_pos (hborderdef ▸ hpad), ← hborderdef,
        reflectPad_getD_mid mix0 border border n (by omega)]
      exact List.getD_eq_getElem mix0 0 h2
  · rw [if_neg hpad]
    rw [if_neg hpad] at hplen
    apply List.ext_getElem
    · rw [hestlen, hplen]
    · intro n h1 h2
      have hn : n < est.length := by omega
      rw [hestval n hn]
      rw [hmixpdef, demixPadded, if_neg (hborderdef ▸ hpad)]
      exact List.getD_eq_getElem mix0 0 h2

/-! ## Result packaging of `demix` (utils.py lines 548-559) -/

/-- Model of `prefer_target_instrument` (utils.py lines 562-581): if a truthy
`target_instrument` is configured return `[target]`, else the full instrument
list.  Python truthiness makes the empty string fall back to the full list. -/
def prefer_target_instrument (target_instrument : Option String)
    (instruments : List String) : List String :=
  match target_instrument with
  | some t => if t = "" then instruments else [t]
  | none => instruments

/-- Return value of `demix`: either the raw stacked array (one row per
instrument) or a name-keyed mapping. -/
inductive DemixReturn (α : Type) where
  | raw : List α → DemixReturn α
  | named : List (String × α) → DemixReturn α
deriving DecidableEq

/-- Model of the return dispatch of `demix` (utils.py lines 548-559):
`ret_data = {k: v for k, v in zip(instruments, estimated_sources)}` and the
raw array is returned instead exactly when `mode == "demucs"` and
`num_instruments <= 1`, with `num_instruments = len(instruments)` for the
mode's instrument list. -/
def demixReturn (mode : String) (instruments : List String) {α : Type}
    (estimated_sources : List α) : DemixReturn α :=
  let ret_data := List.zip instruments estimated_sources
  if mode = "demucs" ∧ instruments.length ≤ 1 then DemixReturn.raw estimated_sources
  else DemixReturn.named ret_data

/-! ## Test-time augmentation (`apply_tta`, utils.py lines 237-288)

Waveforms are (channels, time) arrays, modelled as `List (List ℚ)`; the
instrument-keyed dictionaries are modelled as functions from an instrument
type `I` to waveforms, and `demix` is abstracted as such a function. -/

/-- Model of `mix[::-1]` on a (channels, time) array: reverse the channel
axis. -/
def chanRev (mix : List (List ℚ)) : List (List ℚ) := mix.reverse

/-- Model of `-1.0 * mix`: negate every sample. -/
def polInv (mix : List (List ℚ)) : List (List ℚ) := mix.map (fun ch => ch.map (fun v => -v))

/-- Elementwise `+=` of two (channels, time) arrays. -/
def stemAdd (a b : List (List ℚ)) : List (List ℚ) :=
  List.zipWith (fun x y => List.zipWith (· + ·) x y) a b

/-- Elementwise `-=` of two (channels, time) arrays. -/
def stemSub (a b : List (List ℚ)) : List (List ℚ) :=
  List.zipWith (fun x y => List.zipWith (· - ·) x y) a b

/-- Elementwise division of a (channels, time) array by a scalar. -/
def stemDiv (a : List (List ℚ)) (c : ℚ) : List (List ℚ) :=
  a.map (fun ch => ch.map (fun v => v / c))

/-- Model of `apply_tta` (utils.py lines 237-288): build the augmented
mixtures `[mix[::-1], -1.0 * mix]`, call `demix` on each, add back the
re-reversed channel-inverted result, subtract the polarity-inverted result,
and divide every accumulated waveform by `len(track_proc_list) + 1 = 3`. -/
def apply_tta {I : Type} (dmx : List (List ℚ) → I → List (List ℚ))
    (mix : List (List ℚ)) (waveforms_orig : I → List (List ℚ)) : I → List (List ℚ) :=
  let track_proc_list := [chanRev mix, polInv mix]
  let updated := (track_proc_list.enum).foldl
    (fun (w : I → List (List ℚ)) (iaug : ℕ × List (List ℚ)) =>
      let waveforms := dmx iaug.2
      fun el => if iaug.1 = 0 then stemAdd (w el) (chanRev (waveforms el))
        else stemSub (w el) (waveforms el))
    waveforms_orig
  fun el => stemDiv (updated el) ((track_proc_list.length : ℚ) + 1)

/-! ## Weight reconciliation (`load_not_compatible_weights`, utils.py 584-640)

A tensor is a shape together with an index function `List ℕ → ℚ`; only the
values at indices elementwise below the shape are meaningful. -/

structure Tensor where
  shape : List ℕ
  data : List ℕ → ℚ

/-- Index validity: same rank and each coordinate below the bound. -/
def inShape (shape idx : List ℕ) : Bool :=
  idx.length = shape.length && (List.zipWith (fun i n => decide (i < n)) idx shape).all id

/-- Model of `max_shape` (utils.py lines 619-623): elementwise maximum of the
two shapes (ranks are equal on this code path). -/
def maxShape (s t : List ℕ) : List ℕ := List.zipWith max s t

/-- Model of `max_matrix = np.zeros(max_shape); max_matrix[slices_old] = old`
(utils.py lines 630-632): the source tensor copied into the low-index corner
of a zero buffer. -/
def maxMatrix (old : Tensor) (ms : List ℕ) : Tensor :=
  ⟨ms, fun idx => if inShape old.shape idx then old.data idx else 0⟩

/-- Model of `new_model[el] = max_matrix[slices_new]` (utils.py line 634):
slicing the low-index corner restricts the shape and keeps the values. -/
def sliceLow (m : Tensor) (ns : List ℕ) : Tensor := ⟨ns, m.data⟩

/-- Shape-reconciling copy for one parameter with equal rank but different
shape (utils.py lines 618-634). -/
def reconcileTensor (newT old : Tensor) : Tensor :=
  sliceLow (maxMatrix old (maxShape newT.shape old.shape)) newT.shape

/-- Model of the per-parameter loop of `load_not_compatible_weights`
(utils.py lines 603-637): keep the target tensor when the name is absent or
the ranks differ, copy verbatim on exact shape match, reconcile otherwise. -/
def load_not_compatible_weights (new_model old_model : List (String × Tensor)) :
    List (String × Tensor) :=
  new_model.map (fun p => (p.1,
    match List.lookup p.1 old_model with
    | none => p.2
    | some o =>
      if p.2.shape = o.shape then o
      else if p.2.shape.length ≠ o.shape.length then p.2
      else reconcileTensor p.2 o))

/-- Checkpoint entry: a tensor or a nested container dictionary. -/
inductive CkptEntry where
  | tensor : Tensor → CkptEntry
  | sub : List (String × CkptEntry) → CkptEntry

/-- Model of `if key in old_model: old_model = old_model[key]` for a
container key holding a nested dictionary (utils.py lines 596-601). -/
def unwrapKey (key : String) (d : List (String × CkptEntry)) :
    List (String × CkptEntry) :=
  match List.lookup key d with
  | some (CkptEntry.sub inner) => inner
  | _ => d

/-- Both container conventions, applied in the order of the source:
first `state`, then `state_dict`. -/
def unwrapContainers (d : List (String × CkptEntry)) : List (String × CkptEntry) :=
  unwrapKey "state_dict" (unwrapKey "state" d)

/-- Tensor-valued entries of a checkpoint dictionary. -/
def ckptTensors (d : List (String × CkptEntry)) : List (String × Tensor) :=
  d.filterMap (fun p => match p.2 with
    | CkptEntry.tensor t => some (p.1, t)
    | CkptEntry.sub _ => none)

/-! ## Supporting lemmas for the remaining claims -/

theorem demixFinal_counter_zero (net : List ℚ → List ℚ)
    (chunk_size num_overlap batch_size : ℕ) (mix0 : List ℚ) (t : ℕ)
    (h : (demixFinal net chunk_size num_overlap batch_size mix0).counter t = 0) :
    (demixFinal net chunk_size num_overlap batch_size mix0).result t = 0 := by
  have hchar := demixFinal_char net chunk_size num_overlap batch_size mix0 t
  rw [hchar.2] at h
  rw [hchar.1]
  apply tripCounter_zero_result
  · intro p hp
    obtain ⟨j, hj⟩ := chunkWindows_window_shape _ _ _ _ _ _ _ _ _ p hp
    rw [hj]
    exact flushWindow_mem_nonneg _ _ _ _ _ (getWindowingArray_mem_nonneg _ _)
  · exact h

theorem chunkSchedule_step_zero (chunk_size L : ℕ) (hL : 0 < L) :
    ∀ fuel, (chunkSchedule chunk_size 0 L fuel 0).length = fuel := by
  intro fuel
  induction fuel with
  | zero => simp [chunkSchedule]
  | succ fuel ih =>
    rw [chunkSchedule, if_pos hL, List.length_cons, ih]

theorem tta_cancel_row (ch : List ℚ) :
    (List.zipWith (· - ·) (List.zipWith (· + ·) ch ch) (ch.map (fun v => -v))).map
      (fun v => v / 3) = ch := by
  induction ch with
  | nil => rfl
  | cons x rest ih =>
    simp only [List.zipWith_cons_cons, List.map_cons, ih, List.cons.injEq, and_true]
    ring

theorem tta_cancel (d : List (List ℚ)) : stemDiv (stemSub (stemAdd d d) (polInv d)) 3 = d := by
  induction d with
  | nil => rfl
  | cons ch rest ih =>
    simp only [stemAdd, stemSub, stemDiv, polInv, List.zipWith_cons_cons, List.map_cons,
      List.cons.injEq] at ih ⊢
    exact ⟨tta_cancel_row ch, ih⟩

theorem load_lookup (new_model old_model : List (String × Tensor)) (name : String)
    (t : Tensor) (h : List.lookup name new_model = some t) :
    List.lookup name (load_not_compatible_weights new_model old_model) =
      some (match List.lookup name old_model with
        | none => t
        | some o =>
          if t.shape = o.shape then o
          else if t.shape.length ≠ o.shape.length then t
          else reconcileTensor t o) := by
  induction new_model with
  | nil => simp [List.lookup] at h
  | cons p rest ih =>
    obtain ⟨k, v⟩ := p
    by_cases hk : name = k
    · subst hk
      rw [List.lookup, beq_self_eq_true] at h
      simp only [Option.some.injEq] at h
      subst h
      rw [load_not_compatible_weights, List.map_cons, List.lookup, beq_self_eq_true]
    · have hbeq : (name == k) = false := beq_eq_false_iff_ne.mpr hk
      rw [List.lookup, hbeq] at h
      rw [load_not_compatible_weights, List.map_cons, List.lookup, hbeq]
      exact ih h

theorem load_keys (new_model old_model : List (String × Tensor)) :
    (load_not_compatible_weights new_model old_model).length = new_model.length ∧
    (load_not_compatible_weights new_model old_model).map Prod.fst =
      new_model.map Prod.fst := by
  constructor
  · rw [load_not_compatible_weights, List.length_map]
  · rw [load_not_compatible_weights, List.map_map]
    rfl

theorem inShape_cons (n : ℕ) (s : List ℕ) (i : ℕ) (idx : List ℕ) :
    inShape (n :: s) (i :: idx) = (decide (i < n) && inShape s idx) := by
  simp only [inShape, List.length_cons, List.zipWith_cons_cons, List.all_cons, id]
  rw [show decide (idx.length + 1 = s.length + 1) = decide (idx.length = s.length) from
    decide_eq_decide.mpr (by omega)]
  rw [Bool.and_left_comm]

theorem inShape_min : ∀ (idx s t : List ℕ), s.length = t.length → inShape s idx = true →
    inShape t idx = inShape (List.zipWith min s t) idx := by
  intro idx
  induction idx with
  | nil =>
    intro s t hlen hs
    cases s with
    | nil =>
      cases t with
      | nil => rfl
      | cons m t => simp at hlen
    | cons n s => simp [inShape] at hs
  | cons i idx ih =>
    intro s t hlen hs
    cases s with
    | nil => simp [inShape] at hs
    | cons n s =>
      cases t with
      | nil => simp at hlen
      | cons m t =>
        rw [inShape_cons] at hs
        rcases Bool.and_eq_true _ _ |>.mp hs with ⟨hin, hrest⟩
        have hi : i < n := of_decide_eq_true hin
        rw [List.zipWith_cons_cons, inShape_cons, inShape_cons,
          ih s t (by simpa using hlen) hrest]
        congr 1
        exact decide_eq_decide.mpr (by omega)

/-! # Claim theorems -/

/-- C3: for every buffer length `L > 0`, chunk size `C > 0`, and overlap
factor `O ≥ 1` with `step = C / O ≥ 1`, the ordered placement sequence of the
chunk-scheduling loop covers `[0, L)` with no gaps (every sample lies in some
placement's valid range and every valid range stays inside `[0, L)`), each
`validLength` is at most `C`, and the final placement's `validLength` is
clipped to exactly the remaining samples. -/
theorem claim3_chunk_coverage (L chunk_size num_overlap step : ℕ)
    (hL : 0 < L) (hC : 0 < chunk_size) (_hO : 1 ≤ num_overlap)
    (hdef : step = chunk_size / num_overlap) (hstep : 1 ≤ step) :
    (∀ t, t < L → ∃ p ∈ chunkSchedule chunk_size step L L 0, p.1 ≤ t ∧ t < p.1 + p.2) ∧
    (∀ p ∈ chunkSchedule chunk_size step L L 0, p.1 + p.2 ≤ L ∧ p.2 ≤ chunk_size) ∧
    (∃ s, (chunkSchedule chunk_size step L L 0).getLast? = some (s, L - s)) := by
  have hstepC : step ≤ chunk_size := hdef ▸ Nat.div_le_self _ _
  refine ⟨?_, ?_, ?_⟩
  · intro t ht
    set k := t / step with hk
    have e1 : k * step ≤ t := Nat.div_mul_le_self t step
    have e2 : t < k * step + step := by
      have hdm := Nat.div_add_mod t step
      rw [← hk] at hdm
      have hmod := Nat.mod_lt t (show 0 < step by omega)
      have hco : step * k = k * step := Nat.mul_comm step k
      omega
    have hkk : k ≤ k * step := by
      have := Nat.mul_le_mul_left k (show 1 ≤ step by omega)
      simpa using this
    have hget := chunkSchedule_getElem? chunk_size step L L 0 k
    rw [if_pos ⟨by omega, by omega⟩] at hget
    refine ⟨_, List.getElem?_mem hget, by omega, ?_⟩
    simp only
    omega
  · intro p hp
    have := chunkSchedule_mem_shape chunk_size step L L 0 p hp
    omega
  · have hn := chunkSchedule_length chunk_size step L hstep L 0 (by omega)
    set m := (L - 1) / step with hm
    have hrepr : (chunkSchedule chunk_size step L L 0).length = m + 1 := by
      rw [hn, show L - 0 + step - 1 = (L - 1) + step by omega,
        Nat.add_div_right _ (by omega)]
    have e1 : m * step ≤ L - 1 := Nat.div_mul_le_self _ _
    have e2 : L - 1 < m * step + step := by
      have hdm := Nat.div_add_mod (L - 1) step
      rw [← hm] at hdm
      have hmod := Nat.mod_lt (L - 1) (show 0 < step by omega)
      have hco : step * m = m * step := Nat.mul_comm step m
      omega
    have hmm : m ≤ m * step := by
      have := Nat.mul_le_mul_left m (show 1 ≤ step by omega)
      simpa using this
    have hget := chunkSchedule_getElem? chunk_size step L L 0 m
    rw [if_pos ⟨by omega, by omega⟩] at hget
    refine ⟨m * step, ?_⟩
    rw [List.getLast?_eq_getElem?, hrepr, Nat.add_sub_cancel, hget]
    rw [Nat.zero_add, Nat.min_eq_right (by omega)]

/-- Witness for C3 at `L = 12`, `C = 10`, `O = 2`, `step = 5`. -/
theorem claim3_witness :
    (0 < 12 ∧ 0 < 10 ∧ 1 ≤ 2 ∧ 5 = 10 / 2 ∧ 1 ≤ 5) ∧
    ((∀ t, t < 12 → ∃ p ∈ chunkSchedule 10 5 12 12 0, p.1 ≤ t ∧ t < p.1 + p.2) ∧
     (∀ p ∈ chunkSchedule 10 5 12 12 0, p.1 + p.2 ≤ 12 ∧ p.2 ≤ 10) ∧
     (∃ s, (chunkSchedule 10 5 12 12 0).getLast? = some (s, 12 - s))) :=
  ⟨by decide, claim3_chunk_coverage 12 10 2 5 (by decide) (by decide) (by decide)
    (by decide) (by decide)⟩

/-- C10: when `step = chunk_size // num_overlap ≥ 1`, the scheduling loop of
`demix` terminates: fuel `L` is enough and any larger fuel gives the same
placements, the number of iterations is exactly `⌈L / step⌉`, and the loop
index of the `k`-th iteration is `k * step` (it strictly increases by `step`).
With `step = 0` (that is, `num_overlap > chunk_size`) the loop index never
advances: the number of recorded placements equals the fuel, witnessing that
the source `while`-loop does not terminate. -/
theorem claim10_termination (chunk_size num_overlap L step : ℕ)
    (hdef : step = chunk_size / num_overlap) (hstep : 1 ≤ step) :
    (∀ fuel, L ≤ fuel →
      chunkSchedule chunk_size step L fuel 0 = chunkSchedule chunk_size step L L 0) ∧
    (chunkSchedule chunk_size step L L 0).length = (L + step - 1) / step ∧
    (∀ k, ∀ h : k < (chunkSchedule chunk_size step L L 0).length,
      ((chunkSchedule chunk_size step L L 0).get ⟨k, h⟩).1 = k * step) ∧
    (0 < L → ∀ fuel, (chunkSchedule chunk_size 0 L fuel 0).length = fuel) := by
  refine ⟨?_, ?_, ?_, ?_⟩
  · intro fuel hf
    exact chunkSchedule_fuel_stable chunk_size step L hstep fuel L 0 (by omega) (by omega)
  · rw [chunkSchedule_length chunk_size step L hstep L 0 (by omega)]
    rw [Nat.sub_zero]
  · intro k h
    have hn := chunkSchedule_length chunk_size step L hstep L 0 (by omega)
    have hkL : k < (L - 0 + step - 1) / step := hn ▸ h
    have hks : k * step < L := by
      by_contra hc
      push_neg at hc
      have h1 : L - 0 + step - 1 ≤ (step - 1) + k * step := by omega
      have h2 : ((step - 1) + k * step) / step = (step - 1) / step + k :=
        Nat.add_mul_div_right _ _ (by omega)
      have h3 : (step - 1) / step = 0 := Nat.div_eq_of_lt (by omega)
      have h4 : (L - 0 + step - 1) / step ≤ k := by
        calc (L - 0 + step - 1) / step ≤ ((step - 1) + k * step) / step :=
              Nat.div_le_div_right h1
        _ = k := by rw [h2, h3]; omega
      omega
    have hkk : k ≤ k * step := by
      have := Nat.mul_le_mul_left k (show 1 ≤ step by omega)
      simpa using this
    have hget := chunkSchedule_getElem? chunk_size step L L 0 k
    rw [if_pos ⟨by omega, by omega⟩] at hget
    have hsome := List.getElem?_eq_getElem h
    rw [hget] at hsome
    have hval := Option.some.inj hsome
    rw [List.get_eq_getElem, ← hval]
    simp
  · exact fun hL fuel => chunkSchedule_step_zero chunk_size L hL fuel

/-- Witness for C10 at `C = 10`, `O = 2`, `step = 5`, `L = 12`. -/
theorem claim10_witness :
    (5 = 10 / 2 ∧ 1 ≤ 5) ∧
    ((∀ fuel, 12 ≤ fuel →
        chunkSchedule 10 5 12 fuel 0 = chunkSchedule 10 5 12 12 0) ∧
     (chunkSchedule 10 5 12 12 0).length = (12 + 5 - 1) / 5 ∧
     (∀ k, ∀ h : k < (chunkSchedule 10 5 12 12 0).length,
        ((chunkSchedule 10 5 12 12 0).get ⟨k, h⟩).1 = k * 5) ∧
     (0 < 12 → ∀ fuel, (chunkSchedule 10 0 12 fuel 0).length = fuel)) :=
  ⟨by decide, claim10_termination 10 2 12 5 (by decide) (by decide)⟩

/-- C8: at every sample where the accumulated weight counter is exactly 0,
the final normalization produces output 0 and never an error: a zero counter
forces the accumulated sum to be zero as well (every contribution carries the
same nonnegative window weight that was added to the counter), so the
division is `0 / 0`, i.e. float NaN, which `np.nan_to_num(..., nan=0.0)`
replaces with 0 — the ±FLT_MAX branch that a nonzero sum over a zero weight
would produce is unreachable.  Holds for every backend, configuration,
input, and batch size. -/
theorem claim8_zero_weight_recovery (net : List ℚ → List ℚ)
    (chunk_size num_overlap batch_size : ℕ) (mix0 : List ℚ) (t : ℕ)
    (h : (demixFinal net chunk_size num_overlap batch_size mix0).counter t = 0) :
    (demixFinal net chunk_size num_overlap batch_size mix0).result t = 0 ∧
    finalizeSample ((demixFinal net chunk_size num_overlap batch_size mix0).result t)
      ((demixFinal net chunk_size num_overlap batch_size mix0).counter t) = 0 := by
  have hr := demixFinal_counter_zero net chunk_size num_overlap batch_size mix0 t h
  refine ⟨hr, ?_⟩
  rw [hr, h]
  simp [finalizeSample]

set_option maxHeartbeats 2000000 in
/-- Witness for C8: chunk size 10, overlap 5, batch size 2, constant input of
length 12; the counter at sample 0 is exactly 0 (the first chunk's batch is
flushed without edge correction and its window starts with 0). -/
theorem claim8_witness :
    (demixFinal id 10 5 2 (List.replicate 12 1)).counter 0 = 0 ∧
    ((demixFinal id 10 5 2 (List.replicate 12 1)).result 0 = 0 ∧
      finalizeSample ((demixFinal id 10 5 2 (List.replicate 12 1)).result 0)
        ((demixFinal id 10 5 2 (List.replicate 12 1)).counter 0) = 0) :=
  ⟨by norm_num [demixFinal, demixPadded, demixBorder, demixLoop, mkPart, padChunk,
      getWindowingArray, linspaceQ, listAssign, flushWindow, accumulate, List.range_succ],
   claim8_zero_weight_recovery id 10 5 2 (List.replicate 12 1) 0
    (by norm_num [demixFinal, demixPadded, demixBorder, demixLoop, mkPart, padChunk,
      getWindowingArray, linspaceQ, listAssign, flushWindow, accumulate, List.range_succ])⟩

set_option maxHeartbeats 2000000 in
/-- C1 counterexample: the claim fails as stated because it holds for every
batch size only when the whole-buffer padding is applied.  With
`chunk_size = 10`, `num_overlap = 5` (`step = 2`, `border = 8`), input length
`12 ≤ 2 * border` (so no whole-buffer padding), batch size 2, and the
identity backend, sample 0 of the output is 0 while the input is the constant
1: the first chunk sits in a batch whose window selection key
(`i - step == 0`) refers to the batch's last chunk, so the leading fade is
not forced, the weight at sample 0 is 0, and `demix` returns 0 there. -/
theorem claim1_counterexample :
    ¬ (demixGeneric id 10 5 2 (List.replicate 12 1) = List.replicate 12 1) := by
  intro hcontra
  have h0 : (demixGeneric id 10 5 2 (List.replicate 12 1)).getD 0 0 = (1 : ℚ) := by
    rw [hcontra]
    rfl
  have h1 : (demixGeneric id 10 5 2 (List.replicate 12 1)).getD 0 0 = (0 : ℚ) := by
    norm_num [demixGeneric, demixFinal, demixPadded, demixBorder, demixLoop, mkPart,
      padChunk, getWindowingArray, linspaceQ, listAssign, flushWindow, accumulate,
      finalizeSample, List.range_succ]
  rw [h1] at h0
  exact absurd h0 (by norm_num)

/-- C1 (amended): the overlap-add round trip is exact for batch size 1.  For
every input buffer, if the backend is the identity (single instrument), the
chunk size is smaller than the buffer length, the overlap factor is at least
2, `step = chunk_size // num_overlap ≥ 1` (required for the loop to
terminate), and `fade_size = chunk_size // 10 ≥ 1` (for `chunk_size < 10`
the source crashes in `_getWindowingArray` on the empty-slice assignment
`window[-0:] = fadeout`), then `demix` in generic mode with batch size 1
returns exactly the original input (exact rational arithmetic standing for
floating-point tolerance), with the whole-buffer reflect padding stripped so
the output has the input's length. -/
theorem claim1_overlap_add_roundtrip (chunk_size num_overlap : ℕ) (mix0 : List ℚ)
    (hO : 2 ≤ num_overlap) (hstep : 1 ≤ chunk_size / num_overlap)
    (_hfade : 1 ≤ chunk_size / 10) (hC : chunk_size < mix0.length) :
    demixGeneric id chunk_size num_overlap 1 mix0 = mix0 :=
  demixGeneric_id_roundtrip chunk_size num_overlap mix0 hO hstep hC

/-- Witness for C1 at chunk size 10, overlap 2, batch size 1, constant input
of length 12. -/
theorem claim1_witness :
    (2 ≤ 2 ∧ 1 ≤ 10 / 2 ∧ 1 ≤ 10 / 10 ∧ 10 < (List.replicate 12 (5 : ℚ)).length) ∧
    demixGeneric id 10 2 1 (List.replicate 12 (5 : ℚ)) = List.replicate 12 (5 : ℚ) :=
  ⟨⟨by decide, by decide, by decide, by decide⟩,
    claim1_overlap_add_roundtrip 10 2 (List.replicate 12 (5 : ℚ)) (by decide) (by decide)
      (by decide) (by decide)⟩

/-- C2 counterexample: the claim fails for batch sizes above 1 because the
window is selected once per flushed batch, keyed on the batch's last chunk.
Configuration `chunk_size = 10`, `num_overlap = 2` (`step = 5`,
`fade_size = 1`), input length 12 (padded length 22), batch size 2: the first
batch holds the chunks at 0 and 5 and is flushed at `i = 10` with
`i - step = 5 ≠ 0`, so the chunk starting at offset 0 is accumulated with the
UNMODIFIED window — not, as the claim states for every batch size, with the
window whose leading fade is forced to 1. -/
theorem claim2_counterexample :
    (demixPadded 10 2 (List.replicate 12 (1 : ℚ))).length = 22 ∧
    (chunkWindows 10 5 1 2 (getWindowingArray 10 1) 22 22 0 [])[0]? =
      some (0, 10, getWindowingArray 10 1) ∧
    getWindowingArray 10 1 ≠
      listAssign (getWindowingArray 10 1) 0 (List.replicate 1 1) := by
  refine ⟨by decide, by decide, by decide⟩

/-- C2 (amended): with batch size 1 the per-batch window selection coincides
with the per-chunk rule: the chunk starting at offset 0 is accumulated with
the window whose leading `fade_size` samples are forced to 1 (also when it is
simultaneously the last chunk, by the `elif`); every other chunk from which
the loop index reaches the end of the padded buffer — that is exactly the
final chunk, `start + step ≥ L` — is accumulated with the window whose
trailing `fade_size` samples are forced to 1; every remaining chunk uses the
unmodified fade-in/fade-out window.  For batch sizes above 1 the same rule
applies per batch, keyed on the batch's last chunk (see the counterexample).
Stated over `chunkWindows`, the per-chunk window recorder whose accumulation
agrees with `demixLoop` by `demixLoop_char`. -/
theorem claim2_edge_correction (chunk_size num_overlap : ℕ) (mix0 : List ℚ)
    (p : ℕ × ℕ × List ℚ)
    (hp : p ∈ chunkWindows chunk_size (chunk_size / num_overlap) (chunk_size / 10) 1
      (getWindowingArray chunk_size (chunk_size / 10))
      (demixPadded chunk_size num_overlap mix0).length
      (demixPadded chunk_size num_overlap mix0).length 0 []) :
    p.2.2 = if p.1 = 0 then
        listAssign (getWindowingArray chunk_size (chunk_size / 10)) 0
          (List.replicate (chunk_size / 10) 1)
      else if (demixPadded chunk_size num_overlap mix0).length ≤
          p.1 + chunk_size / num_overlap then
        listAssign (getWindowingArray chunk_size (chunk_size / 10))
          ((getWindowingArray chunk_size (chunk_size / 10)).length - chunk_size / 10)
          (List.replicate (chunk_size / 10) 1)
      else getWindowingArray chunk_size (chunk_size / 10) := by
  rw [chunkWindows_batch1] at hp
  obtain ⟨q, hq, rfl⟩ := List.mem_map.mp hp
  simp only [flushWindow, Nat.add_sub_cancel]

/-- Witness for C2: chunk size 10, overlap 2, input length 12 (padded length
22, `step = 5`, `fade_size = 1`), batch size 1: the first recorded chunk is
the placement `(0, 10)` with the leading-forced window. -/
theorem claim2_witness :
    ((0, 10, listAssign (getWindowingArray 10 1) 0 (List.replicate 1 1)) ∈
      chunkWindows 10 (10 / 2) (10 / 10) 1 (getWindowingArray 10 (10 / 10))
        (demixPadded 10 2 (List.replicate 12 (1 : ℚ))).length
        (demixPadded 10 2 (List.replicate 12 (1 : ℚ))).length 0 []) ∧
    (0, 10, listAssign (getWindowingArray 10 1) 0 (List.replicate 1 1)).2.2 =
      listAssign (getWindowingArray 10 1) 0 (List.replicate 1 1) :=
  ⟨by decide, by
    have h := claim2_edge_correction 10 2 (List.replicate 12 (1 : ℚ))
      (0, 10, listAssign (getWindowingArray 10 1) 0 (List.replicate 1 1)) (by decide)
    simpa using h⟩

/-- C5: window shape.  For every `size > 0` and `0 < fadeSize ≤ size / 2` the
built window has length `size`, is a linear ramp from 0 to 1 over
`[0, fadeSize)`, constantly 1 over `[fadeSize, size - fadeSize)`, and a linear
ramp from 1 to 0 over `[size - fadeSize, size)`; and
`buildWindow(10, 3) = [0, 0.5, 1, 1, 1, 1, 1, 1, 0.5, 0]` exactly.  The ramps
are realized as `torch.linspace` samplings: for `fadeSize ≥ 2` the fade-in
value at `i` is `i / (fadeSize - 1)` (reaching 1 at the last ramp index) and
the fade-out value at offset `j` is `(fadeSize - 1 - j) / (fadeSize - 1)`
(starting at 1 and reaching 0); for the degenerate `fadeSize = 1` both
one-point ramps take their start value (0 and 1 respectively), which is what
`linspace` produces. -/
theorem claim5_window_shape (size fade_size : ℕ) (h0 : 0 < fade_size)
    (h2 : fade_size ≤ size / 2) :
    (getWindowingArray size fade_size).length = size ∧
    (∀ i, i < fade_size → (getWindowingArray size fade_size).getD i 0 =
      if fade_size = 1 then 0 else (i : ℚ) / ((fade_size : ℚ) - 1)) ∧
    (∀ i, fade_size ≤ i → i < size - fade_size →
      (getWindowingArray size fade_size).getD i 0 = 1) ∧
    (∀ j, j < fade_size →
      (getWindowingArray size fade_size).getD (size - fade_size + j) 0 =
        if fade_size = 1 then 1 else ((fade_size : ℚ) - 1 - (j : ℚ)) / ((fade_size : ℚ) - 1)) ∧
    getWindowingArray 10 3 = [0, 1/2, 1, 1, 1, 1, 1, 1, 1/2, 0] := by
  have hf2 : 2 * fade_size ≤ size := by omega
  refine ⟨getWindowingArray_length size fade_size (by omega), ?_, ?_, ?_, ?_⟩
  · intro i hi
    rw [getWindowingArray_getD_fadein size fade_size i hi (by omega),
      linspaceQ_getD 0 1 fade_size i hi]
    by_cases h1 : fade_size = 1
    · rw [if_pos h1, if_pos h1]
    · rw [if_neg h1, if_neg h1]
      ring
  · exact fun i ha hb => getWindowingArray_getD_mid size fade_size i ha hb
  · intro j hj
    rw [getWindowingArray_getD_fadeout size fade_size j hj hf2,
      linspaceQ_getD 1 0 fade_size j hj]
    by_cases h1 : fade_size = 1
    · rw [if_pos h1, if_pos h1]
    · rw [if_neg h1, if_neg h1]
      have hge : (2 : ℚ) ≤ (fade_size : ℚ) := by exact_mod_cast (by omega : 2 ≤ fade_size)
      have hne : ((fade_size : ℚ) - 1) ≠ 0 := by
        intro hc
        rw [sub_eq_zero] at hc
        rw [hc] at hge
        norm_num at hge
      field_simp
      ring
  · norm_num [getWindowingArray, linspaceQ, listAssign, List.range_succ,
      List.replicate_succ]

/-- Witness for C5 at `size = 10`, `fadeSize = 3`. -/
theorem claim5_witness :
    (0 < 3 ∧ 3 ≤ 10 / 2) ∧
    (∀ i, i < 3 → (getWindowingArray 10 3).getD i 0 =
      if 3 = 1 then 0 else (i : ℚ) / ((3 : ℚ) - 1)) ∧
    getWindowingArray 10 3 = [0, 1/2, 1, 1, 1, 1, 1, 1, 1/2, 0] :=
  ⟨⟨by decide, by decide⟩, (claim5_window_shape 10 3 (by decide) (by decide)).2.1,
    (claim5_window_shape 10 3 (by decide) (by decide)).2.2.2.2⟩

/-- C4: TTA averaging.  `apply_tta` returns, per instrument,
`(base + channelReverse(demix(channelReverse(mix))) - demix(-mix)) / 3`; and
for a backend that is invariant under channel reversal and polarity sign (and
a base that is the backend's own output), the TTA output equals the base
output exactly. -/
theorem claim4_tta_averaging {I : Type} (dmx : List (List ℚ) → I → List (List ℚ))
    (mix : List (List ℚ)) (waveforms_orig : I → List (List ℚ)) :
    (∀ el, apply_tta dmx mix waveforms_orig el =
      stemDiv (stemSub (stemAdd (waveforms_orig el) (chanRev (dmx (chanRev mix) el)))
        (dmx (polInv mix) el)) 3) ∧
    ((∀ el, dmx (chanRev mix) el = chanRev (dmx mix el)) →
      (∀ el, dmx (polInv mix) el = polInv (dmx mix el)) →
      (∀ el, waveforms_orig el = dmx mix el) →
      ∀ el, apply_tta dmx mix waveforms_orig el = waveforms_orig el) := by
  have hform : ∀ el, apply_tta dmx mix waveforms_orig el =
      stemDiv (stemSub (stemAdd (waveforms_orig el) (chanRev (dmx (chanRev mix) el)))
        (dmx (polInv mix) el)) 3 := by
    intro el
    show stemDiv _ _ = _
    norm_num [apply_tta, List.enum, List.enumFrom, List.foldl]
  refine ⟨hform, ?_⟩
  intro hrev hpol horig el
  rw [hform el, hrev el, horig el, hpol el]
  simp only [chanRev, List.reverse_reverse]
  exact tta_cancel (dmx mix el)

/-- Witness for C4: the identity backend on a concrete stereo mixture is
invariant under both augmentations, and TTA returns the base output. -/
theorem claim4_witness :
    apply_tta (fun m (_ : Unit) => m) [[1, 2], [3, 4]] (fun _ => [[1, 2], [3, 4]]) () =
      [[1, 2], [3, 4]] :=
  (claim4_tta_averaging (fun m (_ : Unit) => m) [[1, 2], [3, 4]]
    (fun _ => [[1, 2], [3, 4]])).2 (fun _ => rfl) (fun _ => rfl) (fun _ => rfl) ()

/-- C9: single-instrument collapse.  In specialized (demucs) mode with
exactly one configured instrument, `demix` returns the raw array; in generic
mode, or in specialized mode with more than one instrument, it returns the
name-keyed mapping built by zipping the instrument list with the output rows,
so the key order matches the backend's row order. -/
theorem claim9_single_instrument_collapse (mode : String) (instruments : List String)
    (α : Type) (estimated_sources : List α) :
    (mode = "demucs" → instruments.length = 1 →
      demixReturn mode instruments estimated_sources = DemixReturn.raw estimated_sources) ∧
    ((mode ≠ "demucs" ∨ 1 < instruments.length) →
      demixReturn mode instruments estimated_sources =
        DemixReturn.named (List.zip instruments estimated_sources)) := by
  constructor
  · intro hm hl
    rw [demixReturn, if_pos ⟨hm, by omega⟩]
  · intro hcase
    rw [demixReturn, if_neg]
    rintro ⟨hm, hl⟩
    rcases hcase with h | h
    · exact h hm
    · omega

/-- Witness for C9: one instrument in demucs mode yields the raw array; two
instruments in generic mode yield the mapping in row order. -/
theorem claim9_witness :
    demixReturn "demucs" ["vocals"] [(5 : ℤ)] = DemixReturn.raw [(5 : ℤ)] ∧
    demixReturn "generic" ["vocals", "drums"] [(1 : ℤ), 2] =
      DemixReturn.named [("vocals", (1 : ℤ)), ("drums", 2)] :=
  ⟨(claim9_single_instrument_collapse "demucs" ["vocals"] ℤ [5]).1 rfl rfl,
   (claim9_single_instrument_collapse "generic" ["vocals", "drums"] ℤ [1, 2]).2
     (Or.inl (by decide))⟩

/-- C6: weight reconciliation copy semantics.  For a target parameter found
in the source with equal rank but different shape, the reconciled tensor
equals the source on the elementwise-minimum sub-region of the two shapes and
is zero elsewhere inside the target shape; concretely, a (2,3) source into a
(4,3) target gives the source in rows `[0,2)` and zeros in rows `[2,4)`, and
a (4,3) source into a (2,3) target gives the first two rows of the source.
When the shapes match exactly the source tensor is taken verbatim. -/
theorem claim6_reconcile_copy (newT old : Tensor) (idx : List ℕ)
    (hrank : newT.shape.length = old.shape.length)
    (hin : inShape newT.shape idx = true) :
    ((reconcileTensor newT old).data idx =
      if inShape (List.zipWith min newT.shape old.shape) idx then old.data idx else 0) ∧
    (∀ g init : List ℕ → ℚ, ∀ i, i < 4 → ∀ j, j < 3 →
      (reconcileTensor ⟨[4, 3], init⟩ ⟨[2, 3], g⟩).data [i, j] =
        if i < 2 then g [i, j] else 0) ∧
    (∀ g init : List ℕ → ℚ, ∀ i, i < 2 → ∀ j, j < 3 →
      (reconcileTensor ⟨[2, 3], init⟩ ⟨[4, 3], g⟩).data [i, j] = g [i, j]) ∧
    (∀ new_model old_model name t o, List.lookup name new_model = some t →
      List.lookup name old_model = some o → t.shape = o.shape →
      List.lookup name (load_not_compatible_weights new_model old_model) = some o) ∧
    (∀ new_model old_model name t o, List.lookup name new_model = some t →
      List.lookup name old_model = some o → t.shape ≠ o.shape →
      t.shape.length = o.shape.length →
      List.lookup name (load_not_compatible_weights new_model old_model) =
        some (reconcileTensor t o)) := by
  refine ⟨?_, ?_, ?_, ?_, ?_⟩
  · show (if inShape old.shape idx then old.data idx else 0) = _
    rw [inShape_min idx newT.shape old.shape hrank hin]
  · intro g init i hi j hj
    show (if inShape [2, 3] [i, j] then g [i, j] else 0) = _
    by_cases hc : i < 2
    · rw [if_pos (by simp [inShape, hc, hj]), if_pos hc]
    · rw [if_neg (by simp [inShape, hj]; omega), if_neg hc]
  · intro g init i hi j hj
    show (if inShape [4, 3] [i, j] then g [i, j] else 0) = _
    rw [if_pos (by simp [inShape]; omega)]
  · intro new_model old_model name t o hnew hold hsh
    rw [load_lookup new_model old_model name t hnew, hold]
    simp [hsh]
  · intro new_model old_model name t o hnew hold hsh hrk
    rw [load_lookup new_model old_model name t hnew, hold]
    simp [hsh, hrk]

/-- Witness for C6 at target shape (4,3), source shape (2,3), index (1,2). -/
theorem claim6_witness :
    (([4, 3] : List ℕ).length = ([2, 3] : List ℕ).length ∧
      inShape [4, 3] [1, 2] = true) ∧
    ((reconcileTensor ⟨[4, 3], fun _ => 7⟩ ⟨[2, 3], fun _ => 9⟩).data [1, 2] =
      if inShape (List.zipWith min [4, 3] [2, 3]) [1, 2] then (9 : ℚ) else 0) :=
  ⟨⟨by decide, by decide⟩,
    (claim6_reconcile_copy ⟨[4, 3], fun _ => 7⟩ ⟨[2, 3], fun _ => 9⟩ [1, 2]
      (by decide) (by decide)).1⟩

theorem unwrapKey_none (key : String) (d : List (String × CkptEntry))
    (h : List.lookup key d = none) : unwrapKey key d = d := by
  rw [unwrapKey, h]

theorem unwrapKey_cons_sub (key : String) (inner : List (String × CkptEntry))
    (rest : List (String × CkptEntry)) :
    unwrapKey key ((key, CkptEntry.sub inner) :: rest) = inner := by
  rw [unwrapKey, List.lookup, beq_self_eq_true]

/-- C7: weight reconciliation never fails.  A target parameter whose name is
absent from the source, or present with a different rank, keeps its
initialized tensor; the load always completes, producing one entry per target
parameter with the same names in the same order; and the known container
keys `state` and `state_dict` are unwrapped before matching. -/
theorem claim7_loader_robust (new_model old_model : List (String × Tensor))
    (name : String) (t : Tensor) :
    ((List.lookup name new_model = some t → List.lookup name old_model = none →
        List.lookup name (load_not_compatible_weights new_model old_model) = some t) ∧
     (∀ o, List.lookup name new_model = some t → List.lookup name old_model = some o →
        t.shape.length ≠ o.shape.length →
        List.lookup name (load_not_compatible_weights new_model old_model) = some t)) ∧
    ((load_not_compatible_weights new_model old_model).length = new_model.length ∧
     (load_not_compatible_weights new_model old_model).map Prod.fst =
       new_model.map Prod.fst) ∧
    ((∀ inner rest, unwrapContainers (("state", CkptEntry.sub inner) :: rest) =
        unwrapKey "state_dict" inner) ∧
     (∀ d, List.lookup "state" d = none →
        unwrapContainers d = unwrapKey "state_dict" d) ∧
     (∀ inner d, List.lookup "state_dict" d = some (CkptEntry.sub inner) →
        unwrapKey "state_dict" d = inner)) := by
  refine ⟨⟨?_, ?_⟩, load_keys new_model old_model, ?_, ?_, ?_⟩
  · intro hnew hold
    rw [load_lookup new_model old_model name t hnew, hold]
  · intro o hnew hold hrk
    rw [load_lookup new_model old_model name t hnew, hold]
    have hsh : t.shape ≠ o.shape := fun he => hrk (by rw [he])
    simp [hsh, hrk]
  · intro inner rest
    rw [unwrapContainers, unwrapKey_cons_sub]
  · intro d hd
    rw [unwrapContainers, unwrapKey_none "state" d hd]
  · intro inner d hd
    rw [unwrapKey, hd]

/-- Witness for C7: a one-parameter model against a checkpoint that lacks the
name, and against one with a rank-1 tensor for a rank-2 parameter. -/
theorem claim7_witness :
    List.lookup "w" (load_not_compatible_weights [("w", ⟨[2, 3], fun _ => 4⟩)] []) =
      some ⟨[2, 3], fun _ => 4⟩ ∧
    List.lookup "w" (load_not_compatible_weights [("w", ⟨[2, 3], fun _ => 4⟩)]
        [("w", ⟨[6], fun _ => 8⟩)]) = some ⟨[2, 3], fun _ => 4⟩ :=
  ⟨(claim7_loader_robust [("w", ⟨[2, 3], fun _ => 4⟩)] [] "w" ⟨[2, 3], fun _ => 4⟩).1.1
      rfl rfl,
   (claim7_loader_robust [("w", ⟨[2, 3], fun _ => 4⟩)] [("w", ⟨[6], fun _ => 8⟩)] "w"
      ⟨[2, 3], fun _ => 4⟩).1.2 ⟨[6], fun _ => 8⟩ rfl rfl (by decide)⟩

end VKR
